import Mathlib

/-!
Verification of the function-registry / compat / integrity subsystems.

Shallow embedding of:
* the `integrity` Lua module (state machine `Unchecked` / `Running` / `Blocked`);
* the `compat` Lua module's `set_option`;
* the `func_cache` registry (store, holder tracker, subscription registry).
  Only the header declarations of `func_cache` ship with the sources, so its
  operations below are modelled from the specification and the header's
  documentation comments.
-/

namespace Integrity

/-- The three values the integrity module's state variable may take. -/
inductive IState where
  | Unchecked
  | Running
  | Blocked
deriving DecidableEq

/-- `integrity.block_instance()`: moves `Running` to `Blocked`, otherwise
returns without touching the state. -/
def block_instance (s : IState) : IState :=
  if s = .Running then .Blocked else s

/-- `unblock_instance()` (local): moves `Blocked` to `Running`, otherwise
returns without touching the state. -/
def unblock_instance (s : IState) : IState :=
  if s = .Blocked then .Running else s

/-- `integrity.verify_file(path, buffer)`: the hash comparison itself is
abstracted into the boolean `ok` (the result of `internal_verify_file`);
on failure the instance is blocked via `block_instance`.  Returns the new
state and the boolean result. -/
def verify_file (s : IState) (ok : Bool) : IState × Bool :=
  if ok then (s, true) else (block_instance s, false)

/-- The `for _, file in ipairs(res.files)` loop of `integrity.load_hashes`:
`checks` lists, in order, the outcomes of the `verify_file` calls performed
for files that exist on disk.  On the first failing verification the loop
returns early (second component `false`); reaching the end yields `true`. -/
def load_hashes_loop (s : IState) : List Bool → IState × Bool
  | [] => (s, true)
  | ok :: rest =>
    let r := verify_file s ok
    if r.2 then load_hashes_loop r.1 rest else (r.1, false)

/-- `integrity.load_hashes(hashes_path)`: `parseError` models any `error()`
raised while reading or decoding `hashes.json` (all such errors are raised
before any state change); otherwise the verification loop runs and, only if
it reaches its end, `unblock_instance()` is called.  The second component
records whether the call ran to its end. -/
def load_hashes (s : IState) (parseError : Bool) (checks : List Bool) :
    IState × Bool :=
  if parseError then (s, false)
  else
    let r := load_hashes_loop s checks
    if r.2 then (unblock_instance r.1, true) else (r.1, false)

/-- `integrity.enable_integrity_check(hashes_path, sig_path)`: returns at
once unless the state is `Unchecked`; otherwise sets the state to `Running`
and calls `load_hashes`. -/
def enable_integrity_check (s : IState) (parseError : Bool)
    (checks : List Bool) : IState :=
  if s ≠ .Unchecked then s
  else (load_hashes .Running parseError checks).1

theorem load_hashes_loop_blocked (cs : List Bool) :
    load_hashes_loop .Blocked cs = (.Blocked, cs.all id) := by
  induction cs with
  | nil => rfl
  | cons c rest ih =>
    cases c <;>
      simp [load_hashes_loop, verify_file, block_instance, ih]

/-- C9: the integrity state variable takes only the values `Unchecked`,
`Running` and `Blocked` (the type `IState` has exactly these constructors),
and `Blocked` is entered only from `Running`: `block_instance` and a
(possibly failing) `verify_file` leave any non-`Running` state unchanged;
`enable_integrity_check` leaves any non-`Unchecked` state unchanged and from
`Unchecked` first moves to `Running` and then behaves as `load_hashes` from
`Running`; and from `Blocked` the state returns to `Running` exactly when
the `load_hashes` call runs to its end. -/
theorem integrity_state_transitions :
    (∀ s : IState, s ≠ .Running → block_instance s = s) ∧
    (∀ (s : IState) (ok : Bool), s ≠ .Running → (verify_file s ok).1 = s) ∧
    (∀ (s : IState) (e : Bool) (cs : List Bool), s ≠ .Unchecked →
      enable_integrity_check s e cs = s) ∧
    (∀ (e : Bool) (cs : List Bool),
      enable_integrity_check .Unchecked e cs =
        (load_hashes .Running e cs).1) ∧
    (∀ (e : Bool) (cs : List Bool),
      (load_hashes .Blocked e cs).1 = .Running ↔
        (load_hashes .Blocked e cs).2 = true) := by
  refine ⟨?_, ?_, ?_, ?_, ?_⟩
  · intro s hs
    simp [block_instance, hs]
  · intro s ok hs
    cases ok <;> simp [verify_file, block_instance, hs]
  · intro s e cs hs
    simp [enable_integrity_check, hs]
  · intro e cs
    simp [enable_integrity_check]
  · intro e cs
    cases e
    · cases hall : cs.all id <;>
        simp [load_hashes, load_hashes_loop_blocked, hall, unblock_instance]
    · simp [load_hashes]

/-- Witness for `integrity_state_transitions` at concrete states: blocking a
`Blocked` instance changes nothing, and a `load_hashes` with one passing
check that runs to its end unblocks. -/
theorem integrity_state_transitions_witness :
    ((.Blocked : IState) ≠ .Running) ∧
    block_instance .Blocked = .Blocked ∧
    (load_hashes .Blocked false [true]).2 = true ∧
    (load_hashes .Blocked false [true]).1 = .Running :=
  ⟨by decide, integrity_state_transitions.1 .Blocked (by decide), by decide,
   (integrity_state_transitions.2.2.2.2 false [true]).mpr (by decide)⟩

end Integrity

namespace Compat

/-- A Lua value as far as `compat.set_option` distinguishes them: booleans,
strings, and anything of another type. -/
inductive LuaVal where
  | bool (b : Bool)
  | str (s : String)
  | other
deriving DecidableEq

/-- One entry of the `options` table after `verify_option` has normalised
`default` to a boolean (`brief`/`doc` strings play no role in `set_option`). -/
structure COption where
  old : Bool
  new : Bool
  dflt : Bool
  frozen : Bool
deriving DecidableEq

/-- One entry of the dynamic `cfg` table: current value and whether the
option was explicitly selected. -/
structure CfgEntry where
  value : Bool
  selected : Bool
deriving DecidableEq

/-- The module-level mutable state of `compat.lua` that `set_option`
reads and writes: the static `options` table and the dynamic `cfg` table,
both keyed by option name. -/
structure CompatState where
  options : List (String × COption)
  cfg : List (String × CfgEntry)
deriving DecidableEq

/-- `cfg[name].value = val; cfg[name].selected = true` — the two writes at
the end of `set_option`. -/
def cfgSet (cfg : List (String × CfgEntry)) (name : String) (v : Bool) :
    List (String × CfgEntry) :=
  cfg.map (fun p => if p.1 = name then (p.1, ⟨v, true⟩) else p)

/-- `set_option(name, val)` from `compat.lua`: looks the option up, translates
the strings `'new'`/`'old'`/`'default'` to the corresponding boolean, rejects
non-boolean values, rejects setting a frozen option to anything but its new
value (unless `'default'` was given), and only then writes `cfg[name]`.
Returns the resulting state and `some errorMessage` when `error()` is raised
(the `log.warn` calls and the `postaction` hook touch no stored state). -/
def setOption (st : CompatState) (name : String) (val : LuaVal) :
    CompatState × Option String :=
  match st.options.find? (fun p => p.1 = name) with
  | none => (st, some ("Invalid option " ++ name))
  | some q =>
    let option := q.2
    let val1 := if val = .str "new" then .bool option.new else val
    let val2 := if val1 = .str "old" then .bool option.old else val1
    let dflt := val2 = .str "default"
    let val3 := if val2 = .str "default" then .bool option.dflt else val2
    match val3 with
    | .bool v =>
      if ¬option.frozen then
        ({ st with cfg := cfgSet st.cfg name v }, none)
      else if ¬dflt then
        if v = option.new then
          ({ st with cfg := cfgSet st.cfg name v }, none)
        else
          (st, some "Chosen option is no longer available")
      else
        ({ st with cfg := cfgSet st.cfg name v }, none)
    | _ => (st, some "Invalid argument")

/-- `__newindex(_, key, val)` of the `compat` metatable: a single assignment
`compat.key = val` is exactly one `set_option` invocation. -/
def newindex (st : CompatState) (key : String) (val : LuaVal) :
    CompatState × Option String :=
  setOption st key val

theorem setOption_cases (st : CompatState) (name : String) (val : LuaVal) :
    (setOption st name val).2 = none ∨ (setOption st name val).1 = st := by
  unfold setOption
  cases hf : st.options.find? (fun p => p.1 = name) with
  | none => exact .inr rfl
  | some q =>
    dsimp only
    split
    · split_ifs <;> first | exact .inl rfl | exact .inr rfl
    · exact .inr rfl

/-- C10: whenever `set_option(name, val)` raises an error — unknown option,
a value that is not a boolean after translating `'old'`/`'new'`/`'default'`,
or a frozen option set to a non-default value other than its new value —
the stored configuration (`cfg` and `options`) is returned unchanged: every
`error()` in `set_option` is raised before the writes to `cfg[name]`.
This covers every single-option assignment through the module, since
`__newindex`, each iteration of `__call`, and each iteration of `restore`
perform exactly one `set_option` invocation. -/
theorem setOption_error_atomic (st : CompatState) (name : String)
    (val : LuaVal) (h : ((setOption st name val).2).isSome = true) :
    (setOption st name val).1 = st := by
  rcases setOption_cases st name val with h1 | h1
  · rw [h1] at h
    cases h
  · exact h1

/-- Witness for `setOption_error_atomic`: setting the frozen option `"opt"`
to its old value raises and leaves the state untouched. -/
theorem setOption_error_atomic_witness :
    (((setOption ⟨[("opt", ⟨true, false, false, true⟩)],
        [("opt", ⟨false, false⟩)]⟩ "opt" (.bool true)).2).isSome = true) ∧
    (setOption ⟨[("opt", ⟨true, false, false, true⟩)],
        [("opt", ⟨false, false⟩)]⟩ "opt" (.bool true)).1 =
      ⟨[("opt", ⟨true, false, false, true⟩)], [("opt", ⟨false, false⟩)]⟩ :=
  ⟨by decide,
   setOption_error_atomic ⟨[("opt", ⟨true, false, false, true⟩)],
     [("opt", ⟨false, false⟩)]⟩ "opt" (.bool true) (by decide)⟩

end Compat

namespace FuncCache

/-- Modelled from the spec: a `struct func` as the registry sees it — a
stable numeric identifier `fid` and a byte-string name (the function's other
fields are owned by the schema subsystem and never read by the registry). -/
structure Func where
  fid : Nat
  name : String
deriving DecidableEq

/-- Modelled from the spec: a `struct func_cache_holder` — an external
dependent, identified here by `hid`, tagged with its holder-kind `ty`
(`enum func_cache_holder_type`). -/
structure Holder where
  hid : Nat
  ty : Nat
deriving DecidableEq

/-- Modelled from the spec: a `struct func_cache_subscription` — a callback
(identified here by `sid`) registered against the name `func_name`. -/
structure Subscription where
  sid : Nat
  func_name : String
deriving DecidableEq

/-- Modelled from the spec: the whole registry state, replacing the missing
`func_cache.c` — the by-id and by-name indices (two separate association
lists, as in the two hash tables of the source), the per-function holder
rings (flattened to one list of `(fid, holder)` pairs whose per-`fid` order
is ring order), and the subscription rings (one list in registration
order, each subscription carrying its name). -/
structure State where
  funcs_by_id : List (Nat × Func)
  funcs_by_name : List (String × Func)
  holders : List (Nat × Holder)
  subscriptions : List Subscription
deriving DecidableEq

/-- Modelled from the spec: `func_cache_init()` — empty indices, no holders,
no subscriptions. -/
def func_cache_init : State := ⟨[], [], [], []⟩

/-- Modelled from the spec: `func_by_id(fid)` — pure lookup in the by-id
index, `none` when not found. -/
def func_by_id (st : State) (fid : Nat) : Option Func :=
  (st.funcs_by_id.find? (fun p => p.1 = fid)).map Prod.snd

/-- Modelled from the spec: `func_by_name(name, name_len)` — pure lookup in
the by-name index, `none` when not found. -/
def func_by_name (st : State) (name : String) : Option Func :=
  (st.funcs_by_name.find? (fun p => p.1 = name)).map Prod.snd

/-- The holder ring of the function with id `fid`, in ring order. -/
def holdersOf (st : State) (fid : Nat) : List Holder :=
  (st.holders.filter (fun p => p.1 = fid)).map Prod.snd

/-- Modelled from the spec: `func_cache_insert(func)` — asserts that neither
the id nor the name is already present (`none` models the assertion firing),
adds the function to both indices, then synchronously fires and consumes
every subscription registered for exactly this name, in registration order.
The fired callbacks are returned as `(subscription, inserted function)`
pairs, in invocation order. -/
def func_cache_insert (st : State) (f : Func) :
    Option (State × List (Subscription × Func)) :=
  if (func_by_id st f.fid).isSome ∨ (func_by_name st f.name).isSome then
    none
  else
    some ({ st with
            funcs_by_id := (f.fid, f) :: st.funcs_by_id
            funcs_by_name := (f.name, f) :: st.funcs_by_name
            subscriptions :=
              st.subscriptions.filter (fun s => ¬s.func_name = f.name) },
          (st.subscriptions.filter (fun s => s.func_name = f.name)).map
            (fun s => (s, f)))

/-- Modelled from the spec: `func_cache_delete(fid)` — if the id is absent,
do nothing; if the function still has holders the call is refused as a
fatal contract violation (`none` models the assertion firing); otherwise
the function is removed from both indices (its memory stays with the
caller). -/
def func_cache_delete (st : State) (fid : Nat) : Option State :=
  match func_by_id st fid with
  | none => some st
  | some f =>
    if holdersOf st fid = [] then
      some { st with
             funcs_by_id := st.funcs_by_id.eraseP (fun p => p.1 = fid)
             funcs_by_name :=
               st.funcs_by_name.eraseP (fun p => p.1 = f.name) }
    else none

/-- Modelled from the spec: `func_cache_pin(func, holder, type)` — asserts
the function is in the cache, then links the holder, tagged with kind `ty`,
at the tail of the function's holder ring. -/
def func_cache_pin (st : State) (f : Func) (hid : Nat) (ty : Nat) :
    Option State :=
  if (func_by_id st f.fid).isSome then
    some { st with holders := st.holders ++ [(f.fid, ⟨hid, ty⟩)] }
  else none

/-- Modelled from the spec: `func_cache_unpin(func, holder)` — asserts the
function is in the cache and the holder is a member of its ring, then
unlinks that holder. -/
def func_cache_unpin (st : State) (f : Func) (hid : Nat) : Option State :=
  if (func_by_id st f.fid).isSome ∧
      st.holders.any (fun p => p.1 = f.fid ∧ p.2.hid = hid) then
    some { st with
           holders :=
             st.holders.eraseP (fun p => p.1 = f.fid ∧ p.2.hid = hid) }
  else none

/-- Modelled from the spec: `func_cache_is_pinned(func, &type)` — asserts
the function is in the cache; a pure read returning whether the holder ring
is non-empty, together with the first holder's kind when it is (the `type`
out-parameter). -/
def func_cache_is_pinned (st : State) (f : Func) :
    Option (Bool × Option Nat) :=
  if (func_by_id st f.fid).isSome then
    match holdersOf st f.fid with
    | [] => some (false, none)
    | h :: _ => some (true, some h.ty)
  else none

/-- Modelled from the spec: `func_cache_subscribe_by_name` — asserts no live
function with this name is in the cache, then appends the subscription to
the ring for its name (registration order). -/
def func_cache_subscribe_by_name (st : State) (sub : Subscription) :
    Option State :=
  if (func_by_name st sub.func_name).isSome then none
  else some { st with subscriptions := st.subscriptions ++ [sub] }

/-- Modelled from the spec: `func_cache_unsubscribe_by_name` — asserts the
function is still absent and the subscription is currently registered, then
unlinks it from the ring. -/
def func_cache_unsubscribe_by_name (st : State) (sub : Subscription) :
    Option State :=
  if (func_by_name st sub.func_name).isNone ∧ sub ∈ st.subscriptions then
    some { st with subscriptions := st.subscriptions.erase sub }
  else none

/-- One registry operation, for reasoning about arbitrary call sequences. -/
inductive Op where
  | insert (f : Func)
  | delete (fid : Nat)
  | pin (f : Func) (hid : Nat) (ty : Nat)
  | unpin (f : Func) (hid : Nat)
  | subscribe (sub : Subscription)
  | unsubscribe (sub : Subscription)
deriving DecidableEq

/-- Apply one operation; `none` models a fired assertion (violated caller
contract).  Besides the next state, the callbacks the step fired are
returned. -/
def applyOp (st : State) : Op → Option (State × List (Subscription × Func))
  | .insert f => func_cache_insert st f
  | .delete fid => (func_cache_delete st fid).map (fun s => (s, []))
  | .pin f hid ty => (func_cache_pin st f hid ty).map (fun s => (s, []))
  | .unpin f hid => (func_cache_unpin st f hid).map (fun s => (s, []))
  | .subscribe sub =>
    (func_cache_subscribe_by_name st sub).map (fun s => (s, []))
  | .unsubscribe sub =>
    (func_cache_unsubscribe_by_name st sub).map (fun s => (s, []))

/-- Run a sequence of operations, accumulating every callback invocation in
order; `none` as soon as one step violates its contract. -/
def runOps (st : State) : List Op → Option (State × List (Subscription × Func))
  | [] => some (st, [])
  | op :: rest =>
    match applyOp st op with
    | none => none
    | some r =>
      match runOps r.1 rest with
      | none => none
      | some r2 => some (r2.1, r.2 ++ r2.2)

/-- Register a list of subscriptions one after the other. -/
def subscribeAll (st : State) : List Subscription → Option State
  | [] => some st
  | sub :: rest =>
    match func_cache_subscribe_by_name st sub with
    | none => none
    | some st1 => subscribeAll st1 rest

theorem find?_key_eq_some_iff {α β : Type} [DecidableEq α]
    {l : List (α × β)} (h : (l.map Prod.fst).Nodup) (k : α) (e : α × β) :
    l.find? (fun p => p.1 = k) = some e ↔ e ∈ l ∧ e.1 = k := by
  induction l with
  | nil => simp
  | cons a t ih =>
    rw [List.map_cons, List.nodup_cons] at h
    by_cases ha : a.1 = k
    · rw [show List.find? (fun p => p.1 = k) (a :: t) = some a by
        simp [List.find?_cons, ha]]
      constructor
      · intro h1
        injection h1 with h1
        rw [← h1]
        exact ⟨List.mem_cons_self a t, ha⟩
      · rintro ⟨hm, he⟩
        rcases List.mem_cons.1 hm with h2 | h2
        · rw [h2]
        · exact absurd (by rw [ha, ← he]; exact List.mem_map_of_mem Prod.fst h2)
            h.1
    · rw [show List.find? (fun p => p.1 = k) (a :: t) =
          List.find? (fun p => p.1 = k) t by simp [List.find?_cons, ha],
        ih h.2]
      constructor
      · rintro ⟨hm, he⟩
        exact ⟨List.mem_cons_of_mem a hm, he⟩
      · rintro ⟨hm, he⟩
        rcases List.mem_cons.1 hm with h2 | h2
        · exact absurd (by rw [← h2]; exact he) ha
        · exact ⟨h2, he⟩

theorem key_unique {α β : Type} [DecidableEq α] {l : List (α × β)}
    (h : (l.map Prod.fst).Nodup) {k : α} {x y : β}
    (hx : (k, x) ∈ l) (hy : (k, y) ∈ l) : x = y := by
  induction l with
  | nil => cases hx
  | cons a t ih =>
    rw [List.map_cons, List.nodup_cons] at h
    rcases List.mem_cons.1 hx with h1 | h1 <;>
      rcases List.mem_cons.1 hy with h2 | h2
    · rw [← h2] at h1
      exact congrArg Prod.snd h1
    · have hk : k ∈ List.map Prod.fst t := List.mem_map_of_mem Prod.fst h2
      have ha1 : a.1 = k := by rw [← h1]
      exact absurd (ha1.symm ▸ hk) h.1
    · have hk : k ∈ List.map Prod.fst t := List.mem_map_of_mem Prod.fst h1
      have ha1 : a.1 = k := by rw [← h2]
      exact absurd (ha1.symm ▸ hk) h.1
    · exact ih h.2 h1 h2

theorem mem_eraseP_key {α β : Type} [DecidableEq α] {l : List (α × β)}
    (h : (l.map Prod.fst).Nodup) (k : α) (e : α × β) :
    e ∈ l.eraseP (fun p => p.1 = k) ↔ e ∈ l ∧ ¬e.1 = k := by
  induction l with
  | nil => simp
  | cons a t ih =>
    rw [List.map_cons, List.nodup_cons] at h
    by_cases hak : a.1 = k
    · rw [show List.eraseP (fun p => p.1 = k) (a :: t) = t by
        simp [List.eraseP_cons, hak]]
      constructor
      · intro he
        refine ⟨List.mem_cons_of_mem a he, fun hek => ?_⟩
        have hk : e.1 ∈ List.map Prod.fst t := List.mem_map_of_mem Prod.fst he
        have ha1 : a.1 = e.1 := by rw [hak, hek]
        exact h.1 (ha1.symm ▸ hk)
      · rintro ⟨hm, hek⟩
        rcases List.mem_cons.1 hm with h1 | h1
        · exact absurd (by rw [h1]; exact hak) hek
        · exact h1
    · rw [show List.eraseP (fun p => p.1 = k) (a :: t) =
          a :: List.eraseP (fun p => p.1 = k) t by
        simp [List.eraseP_cons, hak]]
      simp only [List.mem_cons, ih h.2]
      constructor
      · rintro (h1 | ⟨h1, h2⟩)
        · exact ⟨Or.inl h1, fun hek => hak (by rw [← h1]; exact hek)⟩
        · exact ⟨Or.inr h1, h2⟩
      · rintro ⟨h1 | h1, h2⟩
        · exact Or.inl h1
        · exact Or.inr ⟨h1, h2⟩

theorem find?_eraseP_key_self {α β : Type} [DecidableEq α]
    {l : List (α × β)} (h : (l.map Prod.fst).Nodup) (k : α) :
    (l.eraseP (fun p => p.1 = k)).find? (fun p => p.1 = k) = none := by
  rw [List.find?_eq_none]
  intro x hx
  rw [mem_eraseP_key h k x] at hx
  simpa using hx.2

theorem holders_filter_empty {st : State} {fid : Nat}
    (hh : holdersOf st fid = []) : ∀ p ∈ st.holders, ¬p.1 = fid := by
  unfold holdersOf at hh
  rw [List.map_eq_nil_iff, List.filter_eq_nil_iff] at hh
  intro p hp hpk
  exact hh p hp (by simpa using hpk)

theorem func_cache_delete_present (st : State) (f : Func) (fid : Nat)
    (hf : func_by_id st fid = some f) (hh : holdersOf st fid = []) :
    func_cache_delete st fid = some
      { st with
        funcs_by_id := st.funcs_by_id.eraseP (fun p => p.1 = fid)
        funcs_by_name :=
          st.funcs_by_name.eraseP (fun p => p.1 = f.name) } := by
  unfold func_cache_delete
  rw [hf]
  dsimp only
  rw [if_pos hh]

theorem func_cache_delete_blocked (st : State) (f : Func) (fid : Nat)
    (hf : func_by_id st fid = some f) (hh : ¬holdersOf st fid = []) :
    func_cache_delete st fid = none := by
  unfold func_cache_delete
  rw [hf]
  dsimp only
  rw [if_neg hh]

theorem func_cache_insert_inv (st : State) (f : Func) (st1 : State)
    (fired : List (Subscription × Func))
    (h : func_cache_insert st f = some (st1, fired)) :
    func_by_id st f.fid = none ∧ func_by_name st f.name = none ∧
    st1 = { st with
            funcs_by_id := (f.fid, f) :: st.funcs_by_id
            funcs_by_name := (f.name, f) :: st.funcs_by_name
            subscriptions :=
              st.subscriptions.filter (fun s => ¬s.func_name = f.name) } ∧
    fired = (st.subscriptions.filter (fun s => s.func_name = f.name)).map
      (fun s => (s, f)) := by
  unfold func_cache_insert at h
  split at h
  · cases h
  case isFalse hg =>
    rw [not_or] at hg
    injection h with h1
    injection h1 with h2 h3
    refine ⟨?_, ?_, h2.symm, h3.symm⟩
    · rcases hx : func_by_id st f.fid with _ | v
      · rfl
      · exact absurd (by rw [hx]; rfl) hg.1
    · rcases hx : func_by_name st f.name with _ | v
      · rfl
      · exact absurd (by rw [hx]; rfl) hg.2

/-- C4: for an id absent from the by-id index, `func_cache_delete` is a
no-op that returns normally with the whole state (both indices, holders,
subscriptions) unchanged; and — given the index invariant that by-id keys
are unique — repeating a delete after it succeeded is likewise a no-op. -/
theorem delete_absent_noop (st : State) (fid : Nat)
    (hnd : (st.funcs_by_id.map Prod.fst).Nodup) :
    (func_by_id st fid = none → func_cache_delete st fid = some st) ∧
    (∀ st1, func_cache_delete st fid = some st1 →
      func_cache_delete st1 fid = some st1) := by
  constructor
  · intro habs
    unfold func_cache_delete
    rw [habs]
  · intro st1 hdel
    cases hid : func_by_id st fid with
    | none =>
      unfold func_cache_delete at hdel
      rw [hid] at hdel
      injection hdel with h1
      rw [← h1]
      unfold func_cache_delete
      rw [hid]
    | some f =>
      by_cases hhs : holdersOf st fid = []
      · rw [func_cache_delete_present st f fid hid hhs] at hdel
        injection hdel with h1
        have hnone : func_by_id st1 fid = none := by
          rw [← h1]
          show Option.map Prod.snd ((st.funcs_by_id.eraseP
            (fun p => p.1 = fid)).find? (fun p => p.1 = fid)) = none
          rw [find?_eraseP_key_self hnd fid]
          rfl
        unfold func_cache_delete
        rw [hnone]
      · rw [func_cache_delete_blocked st f fid hid hhs] at hdel
        cases hdel

/-- Witness for `delete_absent_noop`: deleting id 1 from the empty cache. -/
theorem delete_absent_noop_witness :
    ((func_cache_init.funcs_by_id.map Prod.fst).Nodup) ∧
    func_by_id func_cache_init 1 = none ∧
    func_cache_delete func_cache_init 1 = some func_cache_init :=
  ⟨by decide, by decide,
   (delete_absent_noop func_cache_init 1 (by decide)).1 (by decide)⟩

/-- C5: inserting a function and immediately deleting it by id, with no
intervening pin, restores the by-id and by-name indices to exactly their
previous contents (the success of the insert already certifies that neither
f's id nor f's name was present before). -/
theorem insert_then_delete_restores (st : State) (f : Func)
    (hh : holdersOf st f.fid = [])
    (st1 : State) (fired : List (Subscription × Func))
    (hins : func_cache_insert st f = some (st1, fired)) :
    ∃ st2, func_cache_delete st1 f.fid = some st2 ∧
      st2.funcs_by_id = st.funcs_by_id ∧
      st2.funcs_by_name = st.funcs_by_name := by
  obtain ⟨-, -, h2, -⟩ := func_cache_insert_inv st f st1 fired hins
  have hlook : func_by_id st1 f.fid = some f := by
    rw [h2]
    show Option.map Prod.snd (List.find? (fun p => p.1 = f.fid)
      ((f.fid, f) :: st.funcs_by_id)) = some f
    simp [List.find?_cons]
  have hholders : holdersOf st1 f.fid = [] := by
    rw [h2]
    exact hh
  rw [h2]
  refine ⟨_, func_cache_delete_present _ f f.fid (h2 ▸ hlook) ?_, ?_, ?_⟩
  · exact hh
  · show List.eraseP (fun p => p.1 = f.fid) ((f.fid, f) :: st.funcs_by_id) =
      st.funcs_by_id
    simp [List.eraseP_cons]
  · show List.eraseP (fun p => p.1 = f.name) ((f.name, f) :: st.funcs_by_name) =
      st.funcs_by_name
    simp [List.eraseP_cons]

/-- Witness for `insert_then_delete_restores`: insert id 1 name `f1` into
the empty cache, then delete it. -/
theorem insert_then_delete_restores_witness :
    (holdersOf func_cache_init 1 = []) ∧
    ∃ st2, func_cache_delete
        (⟨[(1, ⟨1, "f1"⟩)], [("f1", ⟨1, "f1"⟩)], [], []⟩ : State) 1 =
        some st2 ∧
      st2.funcs_by_id = func_cache_init.funcs_by_id ∧
      st2.funcs_by_name = func_cache_init.funcs_by_name :=
  ⟨by decide,
   insert_then_delete_restores func_cache_init ⟨1, "f1"⟩ (by decide)
     ⟨[(1, ⟨1, "f1"⟩)], [("f1", ⟨1, "f1"⟩)], [], []⟩ [] (by decide)⟩

/-- C6: `func_cache_is_pinned` is a pure read (it computes a value from the
state and leaves it alone by construction) reporting `false` exactly when
the holder ring is empty; after pinning an unpinned function with kind `K`
it reports `(true, K)`, and after unpinning that only holder it reports
`false` again. -/
theorem is_pinned_spec (st : State) (f : Func) (hid K : Nat)
    (hf : (func_by_id st f.fid).isSome = true) :
    (func_cache_is_pinned st f = some (false, none) ↔
      holdersOf st f.fid = []) ∧
    (holdersOf st f.fid = [] →
      ∃ st1, func_cache_pin st f hid K = some st1 ∧
        func_cache_is_pinned st1 f = some (true, some K) ∧
        ∃ st2, func_cache_unpin st1 f hid = some st2 ∧
          func_cache_is_pinned st2 f = some (false, none)) := by
  constructor
  · unfold func_cache_is_pinned
    rw [if_pos hf]
    cases hhs : holdersOf st f.fid with
    | nil => simp
    | cons h t => simp
  · intro hh
    have hnokey : ∀ p ∈ st.holders, ¬p.1 = f.fid := holders_filter_empty hh
    refine ⟨{ st with holders := st.holders ++ [(f.fid, ⟨hid, K⟩)] }, ?_, ?_, ?_⟩
    · unfold func_cache_pin
      rw [if_pos hf]
    · have hpinned : holdersOf { st with holders := st.holders ++ [(f.fid, ⟨hid, K⟩)] } f.fid = [⟨hid, K⟩] := by
        show (List.filter (fun p => p.1 = f.fid)
          (st.holders ++ [(f.fid, ⟨hid, K⟩)])).map Prod.snd = [⟨hid, K⟩]
        rw [List.filter_append,
          List.filter_eq_nil_iff.2 (fun p hp => by simpa using hnokey p hp)]
        simp
      unfold func_cache_is_pinned
      rw [show func_by_id { st with holders := st.holders ++ [(f.fid, ⟨hid, K⟩)] } f.fid = func_by_id st f.fid from rfl,
        if_pos hf, hpinned]
    · have herase : List.eraseP (fun p => p.1 = f.fid ∧ p.2.hid = hid)
          (st.holders ++ [(f.fid, ⟨hid, K⟩)]) = st.holders := by
        rw [List.eraseP_append_right _ (fun b hb => by simp [hnokey b hb])]
        simp
      have hc : (func_by_id { st with holders := st.holders ++ [(f.fid, ⟨hid, K⟩)] } f.fid).isSome = true ∧
          ((st.holders ++ [((f.fid, ⟨hid, K⟩) : Nat × Holder)]).any (fun p => p.1 = f.fid ∧ p.2.hid = hid)) = true := by
        constructor
        · exact hf
        · rw [List.any_eq_true]
          exact ⟨(f.fid, (⟨hid, K⟩ : Holder)), by simp, by simp⟩
      refine ⟨st, ?_, ?_⟩
      · unfold func_cache_unpin
        rw [if_pos hc]
        dsimp only
        rw [herase]
      · unfold func_cache_is_pinned
        rw [if_pos hf, hh]

/-- Witness for `is_pinned_spec`: function id 1 in a one-function cache,
pinned with holder 7 of kind 0 and unpinned again. -/
theorem is_pinned_spec_witness :
    ((func_by_id (⟨[(1, ⟨1, "f1"⟩)], [("f1", ⟨1, "f1"⟩)], [], []⟩ : State)
        1).isSome = true) ∧
    (func_cache_is_pinned
        (⟨[(1, ⟨1, "f1"⟩)], [("f1", ⟨1, "f1"⟩)], [], []⟩ : State)
        ⟨1, "f1"⟩ = some (false, none) ↔
      holdersOf (⟨[(1, ⟨1, "f1"⟩)], [("f1", ⟨1, "f1"⟩)], [], []⟩ : State)
        1 = []) :=
  ⟨by decide,
   (is_pinned_spec ⟨[(1, ⟨1, "f1"⟩)], [("f1", ⟨1, "f1"⟩)], [], []⟩
     ⟨1, "f1"⟩ 7 0 (by decide)).1⟩

theorem func_cache_pin_frame (st : State) (f : Func) (hid ty : Nat)
    (st1 : State) (h : func_cache_pin st f hid ty = some st1) :
    st1.funcs_by_id = st.funcs_by_id ∧
    st1.funcs_by_name = st.funcs_by_name ∧
    st1.subscriptions = st.subscriptions := by
  unfold func_cache_pin at h
  split at h
  · injection h with h1
    rw [← h1]
    exact ⟨rfl, rfl, rfl⟩
  · cases h

theorem func_cache_unpin_frame (st : State) (f : Func) (hid : Nat)
    (st1 : State) (h : func_cache_unpin st f hid = some st1) :
    st1.funcs_by_id = st.funcs_by_id ∧
    st1.funcs_by_name = st.funcs_by_name ∧
    st1.subscriptions = st.subscriptions := by
  unfold func_cache_unpin at h
  split at h
  · injection h with h1
    rw [← h1]
    exact ⟨rfl, rfl, rfl⟩
  · cases h

theorem func_cache_subscribe_frame (st : State) (sub : Subscription)
    (st1 : State) (h : func_cache_subscribe_by_name st sub = some st1) :
    st1.funcs_by_id = st.funcs_by_id ∧
    st1.funcs_by_name = st.funcs_by_name ∧
    st1.holders = st.holders ∧
    st1.subscriptions = st.subscriptions ++ [sub] := by
  unfold func_cache_subscribe_by_name at h
  split at h
  · cases h
  · injection h with h1
    rw [← h1]
    exact ⟨rfl, rfl, rfl, rfl⟩

theorem func_cache_unsubscribe_frame (st : State) (sub : Subscription)
    (st1 : State) (h : func_cache_unsubscribe_by_name st sub = some st1) :
    st1.funcs_by_id = st.funcs_by_id ∧
    st1.funcs_by_name = st.funcs_by_name ∧
    st1.subscriptions = st.subscriptions.erase sub := by
  unfold func_cache_unsubscribe_by_name at h
  split at h
  · injection h with h1
    rw [← h1]
    exact ⟨rfl, rfl, rfl⟩
  · cases h

theorem func_cache_delete_frame (st : State) (fid : Nat) (st1 : State)
    (h : func_cache_delete st fid = some st1) :
    st1.holders = st.holders ∧ st1.subscriptions = st.subscriptions := by
  unfold func_cache_delete at h
  cases hx : func_by_id st fid with
  | none =>
    rw [hx] at h
    injection h with h1
    rw [← h1]
    exact ⟨rfl, rfl⟩
  | some f =>
    rw [hx] at h
    dsimp only at h
    split at h
    · injection h with h1
      rw [← h1]
      exact ⟨rfl, rfl⟩
    · cases h

/-- C1: while a function has a holder — after `func_cache_pin` and before
the matching `func_cache_unpin` — `func_cache_delete` of its id is refused
as a fatal contract violation (`none`) and the function stays present in
both indices; once `func_cache_unpin` has removed the last holder, the
delete succeeds and repeating the delete is a no-op. -/
theorem pin_blocks_delete (st : State) (f : Func) (hid K : Nat)
    (hpi : func_by_id st f.fid = some f)
    (hpn : func_by_name st f.name = some f)
    (hnd : (st.funcs_by_id.map Prod.fst).Nodup)
    (hh : holdersOf st f.fid = []) :
    ∃ st1, func_cache_pin st f hid K = some st1 ∧
      func_cache_delete st1 f.fid = none ∧
      func_by_id st1 f.fid = some f ∧ func_by_name st1 f.name = some f ∧
      ∃ st2, func_cache_unpin st1 f hid = some st2 ∧
        ∃ st3, func_cache_delete st2 f.fid = some st3 ∧
          func_by_id st3 f.fid = none ∧
          func_cache_delete st3 f.fid = some st3 := by
  have hfs : (func_by_id st f.fid).isSome = true := by rw [hpi]; rfl
  have hnokey : ∀ p ∈ st.holders, ¬p.1 = f.fid := holders_filter_empty hh
  refine ⟨{ st with holders := st.holders ++ [(f.fid, ⟨hid, K⟩)] }, ?_, ?_, hpi, hpn, ?_⟩
  · unfold func_cache_pin
    rw [if_pos hfs]
  · have hpinned : holdersOf { st with holders := st.holders ++ [(f.fid, ⟨hid, K⟩)] } f.fid = [⟨hid, K⟩] := by
      show (List.filter (fun p => p.1 = f.fid)
        (st.holders ++ [(f.fid, ⟨hid, K⟩)])).map Prod.snd = [⟨hid, K⟩]
      rw [List.filter_append,
        List.filter_eq_nil_iff.2 (fun p hp => by simpa using hnokey p hp)]
      simp
    exact func_cache_delete_blocked _ f f.fid hpi (by rw [hpinned]; simp)
  · have herase : List.eraseP (fun p => p.1 = f.fid ∧ p.2.hid = hid)
        (st.holders ++ [(f.fid, ⟨hid, K⟩)]) = st.holders := by
      rw [List.eraseP_append_right _ (fun b hb => by simp [hnokey b hb])]
      simp
    have hc : (func_by_id { st with holders := st.holders ++ [(f.fid, ⟨hid, K⟩)] } f.fid).isSome = true ∧
        ((st.holders ++ [((f.fid, ⟨hid, K⟩) : Nat × Holder)]).any (fun p => p.1 = f.fid ∧ p.2.hid = hid)) = true := by
      constructor
      · exact hfs
      · rw [List.any_eq_true]
        exact ⟨(f.fid, (⟨hid, K⟩ : Holder)), by simp, by simp⟩
    refine ⟨st, ?_, ?_⟩
    · unfold func_cache_unpin
      rw [if_pos hc]
      dsimp only
      rw [herase]
    · refine ⟨_, func_cache_delete_present st f f.fid hpi hh, ?_, ?_⟩
      · show Option.map Prod.snd ((st.funcs_by_id.eraseP
          (fun p => p.1 = f.fid)).find? (fun p => p.1 = f.fid)) = none
        rw [find?_eraseP_key_self hnd f.fid]
        rfl
      · have hnone : func_by_id { st with funcs_by_id := st.funcs_by_id.eraseP (fun p => p.1 = f.fid), funcs_by_name := st.funcs_by_name.eraseP (fun p => p.1 = f.name) } f.fid = none := by
          show Option.map Prod.snd ((st.funcs_by_id.eraseP
            (fun p => p.1 = f.fid)).find? (fun p => p.1 = f.fid)) = none
          rw [find?_eraseP_key_self hnd f.fid]
          rfl
        unfold func_cache_delete
        rw [hnone]

/-- Witness for `pin_blocks_delete`: one function id 1 name `f1`, holder 7
of kind 0. -/
theorem pin_blocks_delete_witness :
    (func_by_id (⟨[(1, ⟨1, "f1"⟩)], [("f1", ⟨1, "f1"⟩)], [], []⟩ : State) 1 = some ⟨1, "f1"⟩) ∧
    (func_by_name (⟨[(1, ⟨1, "f1"⟩)], [("f1", ⟨1, "f1"⟩)], [], []⟩ : State) "f1" = some ⟨1, "f1"⟩) ∧
    ∃ st1, func_cache_pin (⟨[(1, ⟨1, "f1"⟩)], [("f1", ⟨1, "f1"⟩)], [], []⟩ : State) ⟨1, "f1"⟩ 7 0 = some st1 ∧
      func_cache_delete st1 1 = none ∧
      func_by_id st1 1 = some ⟨1, "f1"⟩ ∧ func_by_name st1 "f1" = some ⟨1, "f1"⟩ ∧
      ∃ st2, func_cache_unpin st1 ⟨1, "f1"⟩ 7 = some st2 ∧
        ∃ st3, func_cache_delete st2 1 = some st3 ∧
          func_by_id st3 1 = none ∧
          func_cache_delete st3 1 = some st3 :=
  ⟨by decide, by decide,
   pin_blocks_delete ⟨[(1, ⟨1, "f1"⟩)], [("f1", ⟨1, "f1"⟩)], [], []⟩
     ⟨1, "f1"⟩ 7 0 (by decide) (by decide) (by decide) (by decide)⟩

theorem subscribeAll_inv (subs : List Subscription) (st st1 : State)
    (h : subscribeAll st subs = some st1) :
    st1.funcs_by_id = st.funcs_by_id ∧
    st1.funcs_by_name = st.funcs_by_name ∧
    st1.holders = st.holders ∧
    st1.subscriptions = st.subscriptions ++ subs := by
  induction subs generalizing st with
  | nil =>
    unfold subscribeAll at h
    injection h with h1
    rw [← h1]
    exact ⟨rfl, rfl, rfl, by simp⟩
  | cons sub rest ih =>
    unfold subscribeAll at h
    cases hs : func_cache_subscribe_by_name st sub with
    | none =>
      rw [hs] at h
      cases h
    | some stm =>
      rw [hs] at h
      obtain ⟨f1, f2, f3, f4⟩ := func_cache_subscribe_frame st sub stm hs
      obtain ⟨g1, g2, g3, g4⟩ := ih stm h
      refine ⟨by rw [g1, f1], by rw [g2, f2], by rw [g3, f3], ?_⟩
      rw [g4, f4]
      simp

/-- C3: a subscription registered for a name while no function of that name
exists is fired exactly once — synchronously, as part of the insert call,
receiving the inserted function — by the first insert of a function with
that name; the firing consumes the subscription, so after that function is
deleted, inserting another function with the same name does not invoke the
subscription again. -/
theorem subscription_fires_exactly_once (st : State) (sub : Subscription)
    (f g : Func)
    (hname : sub.func_name = f.name)
    (hnotin : sub ∉ st.subscriptions)
    (habs : func_by_name st sub.func_name = none) :
    ∃ stA, func_cache_subscribe_by_name st sub = some stA ∧
      ∀ stB fired, func_cache_insert stA f = some (stB, fired) →
        fired.count (sub, f) = 1 ∧ sub ∉ stB.subscriptions ∧
        ∀ stC, func_cache_delete stB f.fid = some stC →
          ∀ stD fired2, func_cache_insert stC g = some (stD, fired2) →
            ∀ h, (sub, h) ∉ fired2 := by
  have hinj : Function.Injective (fun s : Subscription => (s, f)) :=
    fun a b hab => congrArg Prod.fst hab
  refine ⟨{ st with subscriptions := st.subscriptions ++ [sub] }, ?_, ?_⟩
  · unfold func_cache_subscribe_by_name
    rw [if_neg (by rw [habs]; simp)]
  · intro stB fired hins
    obtain ⟨-, -, hB, hfired⟩ := func_cache_insert_inv _ f stB fired hins
    have hsubsA : State.subscriptions { st with subscriptions := st.subscriptions ++ [sub] } = st.subscriptions ++ [sub] := rfl
    have hcount : fired.count (sub, f) = 1 := by
      rw [hfired, hsubsA, List.filter_append, List.map_append,
        List.count_append]
      rw [show List.filter (fun s => s.func_name = f.name) [sub] = [sub] by
        simp [List.filter_cons, hname]]
      rw [List.count_eq_zero.2 (fun hin => ?_)]
      · simp
      · obtain ⟨s, hs, heq⟩ := List.mem_map.1 hin
        have hssub : s = sub := congrArg Prod.fst heq
        rw [hssub] at hs
        exact hnotin ((List.mem_filter.1 hs).1)
    have hnotB : sub ∉ stB.subscriptions := by
      rw [hB]
      intro hin
      have h2 := (List.mem_filter.1 hin).2
      rw [decide_eq_true_eq] at h2
      exact h2 hname
    refine ⟨hcount, hnotB, ?_⟩
    intro stC hdel stD fired2 hins2
    obtain ⟨-, hsubsC⟩ := func_cache_delete_frame stB f.fid stC hdel
    obtain ⟨-, -, -, hfired2⟩ := func_cache_insert_inv stC g stD fired2 hins2
    intro h hin
    rw [hfired2] at hin
    obtain ⟨s, hs, heq⟩ := List.mem_map.1 hin
    have hssub : s = sub := congrArg Prod.fst heq
    rw [hssub] at hs
    exact hnotB (hsubsC ▸ (List.mem_filter.1 hs).1)

/-- Witness for `subscription_fires_exactly_once`: subscription 5 on name
`foo`, functions id 1 and id 2 both named `foo`, starting from the empty
cache. -/
theorem subscription_fires_exactly_once_witness :
    ((⟨5, "foo"⟩ : Subscription).func_name = (⟨1, "foo"⟩ : Func).name) ∧
    ((⟨5, "foo"⟩ : Subscription) ∉ func_cache_init.subscriptions) ∧
    (func_by_name func_cache_init "foo" = none) ∧
    ∃ stA, func_cache_subscribe_by_name func_cache_init ⟨5, "foo"⟩ = some stA ∧
      ∀ stB fired, func_cache_insert stA ⟨1, "foo"⟩ = some (stB, fired) →
        fired.count (⟨5, "foo"⟩, ⟨1, "foo"⟩) = 1 ∧
        (⟨5, "foo"⟩ : Subscription) ∉ stB.subscriptions ∧
        ∀ stC, func_cache_delete stB 1 = some stC →
          ∀ stD fired2, func_cache_insert stC ⟨2, "foo"⟩ = some (stD, fired2) →
            ∀ h, ((⟨5, "foo"⟩ : Subscription), h) ∉ fired2 :=
  ⟨by decide, by decide, by decide,
   subscription_fires_exactly_once func_cache_init ⟨5, "foo"⟩
     ⟨1, "foo"⟩ ⟨2, "foo"⟩ (by decide) (by decide) (by decide)⟩

/-- C7: when a function named `N` is inserted while `k` subscriptions are
registered for `N` (and none were registered before them), the fired
callbacks are exactly those `k` subscriptions in the order in which they
were registered. -/
theorem subscriptions_fire_in_registration_order (st : State)
    (subs : List Subscription) (n : String) (f : Func)
    (hns : ∀ s ∈ subs, s.func_name = n)
    (hempty : st.subscriptions.filter (fun s => s.func_name = n) = [])
    (hf : f.name = n)
    (st1 : State) (hall : subscribeAll st subs = some st1)
    (st2 : State) (fired : List (Subscription × Func))
    (hins : func_cache_insert st1 f = some (st2, fired)) :
    fired = subs.map (fun s => (s, f)) := by
  obtain ⟨-, -, -, hsubs⟩ := subscribeAll_inv subs st st1 hall
  obtain ⟨-, -, -, hfired⟩ := func_cache_insert_inv st1 f st2 fired hins
  rw [hfired, hsubs, hf, List.filter_append, hempty,
    List.filter_eq_self.2 (fun s hs => by simp [hns s hs])]
  simp

/-- Witness for `subscriptions_fire_in_registration_order`: subscriptions 5
and 6 on name `foo`, then insert of function id 1 named `foo`. -/
theorem subscriptions_fire_in_registration_order_witness :
    (∀ s ∈ ([⟨5, "foo"⟩, ⟨6, "foo"⟩] : List Subscription), s.func_name = "foo") ∧
    (func_cache_init.subscriptions.filter (fun s => s.func_name = "foo") = []) ∧
    ((⟨1, "foo"⟩ : Func).name = "foo") ∧
    (subscribeAll func_cache_init [(⟨5, "foo"⟩ : Subscription), ⟨6, "foo"⟩] =
      some (⟨[], [], [], [⟨5, "foo"⟩, ⟨6, "foo"⟩]⟩ : State)) ∧
    (func_cache_insert (⟨[], [], [], [⟨5, "foo"⟩, ⟨6, "foo"⟩]⟩ : State) ⟨1, "foo"⟩ =
      some ((⟨[(1, ⟨1, "foo"⟩)], [("foo", ⟨1, "foo"⟩)], [], []⟩ : State),
        [((⟨5, "foo"⟩ : Subscription), (⟨1, "foo"⟩ : Func)), (⟨6, "foo"⟩, ⟨1, "foo"⟩)])) ∧
    ([((⟨5, "foo"⟩ : Subscription), (⟨1, "foo"⟩ : Func)), (⟨6, "foo"⟩, ⟨1, "foo"⟩)] =
      ([⟨5, "foo"⟩, ⟨6, "foo"⟩] : List Subscription).map (fun s => (s, (⟨1, "foo"⟩ : Func)))) :=
  ⟨by decide, by decide, by decide, by decide, by decide,
   subscriptions_fire_in_registration_order func_cache_init
     [⟨5, "foo"⟩, ⟨6, "foo"⟩] "foo" ⟨1, "foo"⟩ (by decide) (by decide)
     (by decide) ⟨[], [], [], [⟨5, "foo"⟩, ⟨6, "foo"⟩]⟩ (by decide)
     ⟨[(1, ⟨1, "foo"⟩)], [("foo", ⟨1, "foo"⟩)], [], []⟩
     [(⟨5, "foo"⟩, ⟨1, "foo"⟩), (⟨6, "foo"⟩, ⟨1, "foo"⟩)] (by decide)⟩

theorem applyOp_preserves_nosub (s : State) (op : Op)
    (r : State × List (Subscription × Func)) (sub : Subscription)
    (h : applyOp s op = some r) (hs : sub ∉ s.subscriptions)
    (hop : op ≠ .subscribe sub) :
    sub ∉ r.1.subscriptions ∧ ∀ g, (sub, g) ∉ r.2 := by
  cases op with
  | insert f =>
    obtain ⟨-, -, h2, h3⟩ := func_cache_insert_inv s f r.1 r.2 h
    constructor
    · rw [h2]
      intro hin
      exact hs ((List.mem_filter.1 hin).1)
    · intro g hin
      rw [h3] at hin
      obtain ⟨x, hx, heq⟩ := List.mem_map.1 hin
      have hxsub : x = sub := congrArg Prod.fst heq
      rw [hxsub] at hx
      exact hs ((List.mem_filter.1 hx).1)
  | delete fid =>
    cases hd : func_cache_delete s fid with
    | none =>
      rw [show applyOp s (.delete fid) =
        (func_cache_delete s fid).map (fun x => (x, [])) from rfl, hd] at h
      cases h
    | some s1 =>
      rw [show applyOp s (.delete fid) =
        (func_cache_delete s fid).map (fun x => (x, [])) from rfl, hd] at h
      injection h with h1
      rw [← h1]
      refine ⟨?_, by intro g hg; cases hg⟩
      rw [(func_cache_delete_frame s fid s1 hd).2]
      exact hs
  | pin f hid ty =>
    cases hd : func_cache_pin s f hid ty with
    | none =>
      rw [show applyOp s (.pin f hid ty) =
        (func_cache_pin s f hid ty).map (fun x => (x, [])) from rfl, hd] at h
      cases h
    | some s1 =>
      rw [show applyOp s (.pin f hid ty) =
        (func_cache_pin s f hid ty).map (fun x => (x, [])) from rfl, hd] at h
      injection h with h1
      rw [← h1]
      refine ⟨?_, by intro g hg; cases hg⟩
      rw [(func_cache_pin_frame s f hid ty s1 hd).2.2]
      exact hs
  | unpin f hid =>
    cases hd : func_cache_unpin s f hid with
    | none =>
      rw [show applyOp s (.unpin f hid) =
        (func_cache_unpin s f hid).map (fun x => (x, [])) from rfl, hd] at h
      cases h
    | some s1 =>
      rw [show applyOp s (.unpin f hid) =
        (func_cache_unpin s f hid).map (fun x => (x, [])) from rfl, hd] at h
      injection h with h1
      rw [← h1]
      refine ⟨?_, by intro g hg; cases hg⟩
      rw [(func_cache_unpin_frame s f hid s1 hd).2.2]
      exact hs
  | subscribe sub1 =>
    have hne : sub1 ≠ sub := by
      intro he
      rw [he] at hop
      exact hop rfl
    cases hd : func_cache_subscribe_by_name s sub1 with
    | none =>
      rw [show applyOp s (.subscribe sub1) =
        (func_cache_subscribe_by_name s sub1).map (fun x => (x, [])) from rfl,
        hd] at h
      cases h
    | some s1 =>
      rw [show applyOp s (.subscribe sub1) =
        (func_cache_subscribe_by_name s sub1).map (fun x => (x, [])) from rfl,
        hd] at h
      injection h with h1
      rw [← h1]
      refine ⟨?_, by intro g hg; cases hg⟩
      rw [(func_cache_subscribe_frame s sub1 s1 hd).2.2.2]
      intro hin
      rcases List.mem_append.1 hin with h2 | h2
      · exact hs h2
      · rcases List.mem_cons.1 h2 with h3 | h3
        · exact hne h3.symm
        · cases h3
  | unsubscribe sub1 =>
    cases hd : func_cache_unsubscribe_by_name s sub1 with
    | none =>
      rw [show applyOp s (.unsubscribe sub1) =
        (func_cache_unsubscribe_by_name s sub1).map (fun x => (x, [])) from
        rfl, hd] at h
      cases h
    | some s1 =>
      rw [show applyOp s (.unsubscribe sub1) =
        (func_cache_unsubscribe_by_name s sub1).map (fun x => (x, [])) from
        rfl, hd] at h
      injection h with h1
      rw [← h1]
      refine ⟨?_, by intro g hg; cases hg⟩
      rw [(func_cache_unsubscribe_frame s sub1 s1 hd).2.2]
      intro hin
      exact hs (List.mem_of_mem_erase hin)

theorem runOps_no_fire (sub : Subscription) (ops : List Op) :
    ∀ (s : State) (r : State × List (Subscription × Func)),
      runOps s ops = some r → sub ∉ s.subscriptions →
      (∀ op ∈ ops, op ≠ .subscribe sub) →
      sub ∉ r.1.subscriptions ∧ ∀ g, (sub, g) ∉ r.2 := by
  induction ops with
  | nil =>
    intro s r h hs _
    unfold runOps at h
    injection h with h1
    rw [← h1]
    exact ⟨hs, by intro g hg; cases hg⟩
  | cons op rest ih =>
    intro s r h hs hops
    unfold runOps at h
    cases ha : applyOp s op with
    | none =>
      rw [ha] at h
      cases h
    | some r1 =>
      rw [ha] at h
      dsimp only at h
      cases hr : runOps r1.1 rest with
      | none =>
        rw [hr] at h
        cases h
      | some r2 =>
        rw [hr] at h
        injection h with h1
        rw [← h1]
        obtain ⟨hs1, hf1⟩ := applyOp_preserves_nosub s op r1 sub ha hs
          (hops op (List.mem_cons_self op rest))
        obtain ⟨hs2, hf2⟩ := ih r1.1 r2 hr hs1
          (fun o ho => hops o (List.mem_cons_of_mem op ho))
        refine ⟨hs2, ?_⟩
        intro g hin
        rcases List.mem_append.1 hin with h2 | h2
        · exact hf1 g h2
        · exact hf2 g h2

/-- C8: a subscription removed by `func_cache_unsubscribe_by_name` before
any insert of its name is never fired afterwards: along any subsequent
sequence of registry operations that does not subscribe it again — in
particular inserts of functions with that very name — no fired callback
belongs to it. -/
theorem unsubscribe_prevents_callback (st : State) (sub : Subscription)
    (hcount : st.subscriptions.count sub ≤ 1)
    (st1 : State)
    (hunsub : func_cache_unsubscribe_by_name st sub = some st1)
    (ops : List Op) (hops : ∀ op ∈ ops, op ≠ .subscribe sub)
    (res : State × List (Subscription × Func))
    (hrun : runOps st1 ops = some res) :
    ∀ g, (sub, g) ∉ res.2 := by
  have hmem : sub ∉ st1.subscriptions := by
    rw [(func_cache_unsubscribe_frame st sub st1 hunsub).2.2]
    intro hin
    have h2 := List.count_erase_self sub st.subscriptions
    have h3 : 0 < (st.subscriptions.erase sub).count sub :=
      List.count_pos_iff.2 hin
    omega
  exact (runOps_no_fire sub ops st1 res hrun hmem hops).2

/-- Witness for `unsubscribe_prevents_callback`: subscription 5 on `g` is
registered and unsubscribed, then a function named `g` is inserted. -/
theorem unsubscribe_prevents_callback_witness :
    ((⟨[], [], [], [⟨5, "g"⟩]⟩ : State).subscriptions.count ⟨5, "g"⟩ ≤ 1) ∧
    (func_cache_unsubscribe_by_name (⟨[], [], [], [⟨5, "g"⟩]⟩ : State)
      ⟨5, "g"⟩ = some func_cache_init) ∧
    (∀ op ∈ ([Op.insert ⟨2, "g"⟩] : List Op), op ≠ .subscribe ⟨5, "g"⟩) ∧
    ∀ g, ((⟨5, "g"⟩ : Subscription), g) ∉
      (((⟨[(2, ⟨2, "g"⟩)], [("g", ⟨2, "g"⟩)], [], []⟩ : State),
        ([] : List (Subscription × Func)))).2 :=
  ⟨by decide, by decide, by decide,
   unsubscribe_prevents_callback ⟨[], [], [], [⟨5, "g"⟩]⟩ ⟨5, "g"⟩
     (by decide) func_cache_init (by decide) [Op.insert ⟨2, "g"⟩]
     (by decide)
     ((⟨[(2, ⟨2, "g"⟩)], [("g", ⟨2, "g"⟩)], [], []⟩ : State), [])
     (by decide)⟩

/-- The store invariant: both indices have unique keys, every entry's key is
the indexed function's own id resp. name, and the two indices hold exactly
the same functions. -/
def StoreInv (st : State) : Prop :=
  (st.funcs_by_id.map Prod.fst).Nodup ∧
  (st.funcs_by_name.map Prod.fst).Nodup ∧
  (∀ p ∈ st.funcs_by_id, p.1 = p.2.fid) ∧
  (∀ p ∈ st.funcs_by_name, p.1 = p.2.name) ∧
  (∀ f : Func, (f.fid, f) ∈ st.funcs_by_id ↔ (f.name, f) ∈ st.funcs_by_name)

theorem lookup_eq_some_iff {α β : Type} [DecidableEq α]
    {l : List (α × β)} (h : (l.map Prod.fst).Nodup) (k : α) (x : β) :
    (l.find? (fun p => p.1 = k)).map Prod.snd = some x ↔ (k, x) ∈ l := by
  cases hf : l.find? (fun p => p.1 = k) with
  | none =>
    rw [List.find?_eq_none] at hf
    constructor
    · intro hx
      exact absurd hx (by simp)
    · intro hm
      have h2 := hf (k, x) hm
      simp at h2
  | some e =>
    obtain ⟨hm2, hk⟩ := (find?_key_eq_some_iff h k e).1 hf
    have hee : (k, e.2) = e := by rw [← hk]
    constructor
    · intro hx
      have hx1 : some e.2 = some x := hx
      injection hx1 with hx2
      rw [← hx2, hee]
      exact hm2
    · intro hm
      have hx : e.2 = x := key_unique h (hee ▸ hm2) hm
      show some e.2 = some x
      rw [hx]

theorem find?_none_of_lookup_none {α β : Type} [DecidableEq α]
    {l : List (α × β)} {k : α}
    (h : (l.find? (fun p => p.1 = k)).map Prod.snd = none) :
    ∀ p ∈ l, ¬p.1 = k := by
  have hf : l.find? (fun p => p.1 = k) = none := by
    cases hx : l.find? (fun p => p.1 = k) with
    | none => rfl
    | some e =>
      rw [hx] at h
      exact absurd h (by simp)
  rw [List.find?_eq_none] at hf
  intro p hp hpk
  exact hf p hp (decide_eq_true hpk)

theorem insert_preserves_inv (st : State) (f : Func) (st1 : State)
    (fired : List (Subscription × Func))
    (h : func_cache_insert st f = some (st1, fired)) (hw : StoreInv st) :
    StoreInv st1 := by
  obtain ⟨habsI, habsN, h2, -⟩ := func_cache_insert_inv st f st1 fired h
  obtain ⟨w1, w2, w3, w4, w5⟩ := hw
  have hni : ∀ p ∈ st.funcs_by_id, ¬p.1 = f.fid :=
    find?_none_of_lookup_none habsI
  have hnn : ∀ p ∈ st.funcs_by_name, ¬p.1 = f.name :=
    find?_none_of_lookup_none habsN
  rw [h2]
  refine ⟨?_, ?_, ?_, ?_, ?_⟩
  · show (List.map Prod.fst ((f.fid, f) :: st.funcs_by_id)).Nodup
    rw [List.map_cons]
    refine List.nodup_cons.2 ⟨fun hmem => ?_, w1⟩
    obtain ⟨p, hp, hpe⟩ := List.mem_map.1 hmem
    exact hni p hp hpe
  · show (List.map Prod.fst ((f.name, f) :: st.funcs_by_name)).Nodup
    rw [List.map_cons]
    refine List.nodup_cons.2 ⟨fun hmem => ?_, w2⟩
    obtain ⟨p, hp, hpe⟩ := List.mem_map.1 hmem
    exact hnn p hp hpe
  · intro p hp
    rcases List.mem_cons.1 hp with h3 | h3
    · rw [h3]
    · exact w3 p h3
  · intro p hp
    rcases List.mem_cons.1 hp with h3 | h3
    · rw [h3]
    · exact w4 p h3
  · intro g
    show (g.fid, g) ∈ (f.fid, f) :: st.funcs_by_id ↔
      (g.name, g) ∈ (f.name, f) :: st.funcs_by_name
    rw [List.mem_cons, List.mem_cons]
    constructor
    · rintro (h3 | h3)
      · have hgf : g = f := congrArg Prod.snd h3
        left
        rw [hgf]
      · right
        exact (w5 g).1 h3
    · rintro (h3 | h3)
      · have hgf : g = f := congrArg Prod.snd h3
        left
        rw [hgf]
      · right
        exact (w5 g).2 h3

theorem delete_preserves_inv (st : State) (fid : Nat) (st1 : State)
    (h : func_cache_delete st fid = some st1) (hw : StoreInv st) :
    StoreInv st1 := by
  obtain ⟨w1, w2, w3, w4, w5⟩ := hw
  cases hx : func_by_id st fid with
  | none =>
    unfold func_cache_delete at h
    rw [hx] at h
    injection h with h1
    rw [← h1]
    exact ⟨w1, w2, w3, w4, w5⟩
  | some f0 =>
    unfold func_cache_delete at h
    rw [hx] at h
    dsimp only at h
    split at h
    case isFalse => cases h
    case isTrue hhe =>
    injection h with h1
    rw [← h1]
    have hmem0 : (fid, f0) ∈ st.funcs_by_id := (lookup_eq_some_iff w1 fid f0).1 hx
    have hfid0 : fid = f0.fid := w3 (fid, f0) hmem0
    have hmemN : (f0.name, f0) ∈ st.funcs_by_name :=
      (w5 f0).1 (by rw [← hfid0]; exact hmem0)
    refine ⟨?_, ?_, ?_, ?_, ?_⟩
    · exact ((List.eraseP_sublist _).map Prod.fst).nodup w1
    · exact ((List.eraseP_sublist _).map Prod.fst).nodup w2
    · intro p hp
      exact w3 p (List.mem_of_mem_eraseP hp)
    · intro p hp
      exact w4 p (List.mem_of_mem_eraseP hp)
    · intro g
      show (g.fid, g) ∈ st.funcs_by_id.eraseP (fun p => p.1 = fid) ↔
        (g.name, g) ∈ st.funcs_by_name.eraseP (fun p => p.1 = f0.name)
      rw [mem_eraseP_key w1 fid (g.fid, g),
        mem_eraseP_key w2 f0.name (g.name, g)]
      constructor
      · rintro ⟨hm, hne⟩
        refine ⟨(w5 g).1 hm, fun heq => hne ?_⟩
        have hgN : (f0.name, g) ∈ st.funcs_by_name := heq ▸ (w5 g).1 hm
        have hgf : g = f0 := key_unique w2 hgN hmemN
        rw [hgf]
        exact hfid0.symm
      · rintro ⟨hm, hne⟩
        refine ⟨(w5 g).2 hm, fun heq => hne ?_⟩
        have hgI : (fid, g) ∈ st.funcs_by_id := heq ▸ (w5 g).2 hm
        have hgf : g = f0 := key_unique w1 hgI hmem0
        rw [hgf]

theorem storeInv_of_eq (s1 s2 : State)
    (h1 : s2.funcs_by_id = s1.funcs_by_id)
    (h2 : s2.funcs_by_name = s1.funcs_by_name) (hw : StoreInv s1) :
    StoreInv s2 := by
  obtain ⟨w1, w2, w3, w4, w5⟩ := hw
  exact ⟨by rw [h1]; exact w1, by rw [h2]; exact w2,
    by rw [h1]; exact w3, by rw [h2]; exact w4,
    fun f => by rw [h1, h2]; exact w5 f⟩

theorem applyOp_preserves_inv (s : State) (op : Op)
    (r : State × List (Subscription × Func))
    (h : applyOp s op = some r) (hw : StoreInv s) : StoreInv r.1 := by
  cases op with
  | insert f => exact insert_preserves_inv s f r.1 r.2 h hw
  | delete fid =>
    cases hd : func_cache_delete s fid with
    | none =>
      rw [show applyOp s (.delete fid) =
        (func_cache_delete s fid).map (fun x => (x, [])) from rfl, hd] at h
      cases h
    | some s1 =>
      rw [show applyOp s (.delete fid) =
        (func_cache_delete s fid).map (fun x => (x, [])) from rfl, hd] at h
      injection h with h1
      rw [← h1]
      exact delete_preserves_inv s fid s1 hd hw
  | pin f hid ty =>
    cases hd : func_cache_pin s f hid ty with
    | none =>
      rw [show applyOp s (.pin f hid ty) =
        (func_cache_pin s f hid ty).map (fun x => (x, [])) from rfl, hd] at h
      cases h
    | some s1 =>
      rw [show applyOp s (.pin f hid ty) =
        (func_cache_pin s f hid ty).map (fun x => (x, [])) from rfl, hd] at h
      injection h with h1
      rw [← h1]
      obtain ⟨e1, e2, -⟩ := func_cache_pin_frame s f hid ty s1 hd
      exact storeInv_of_eq s s1 e1 e2 hw
  | unpin f hid =>
    cases hd : func_cache_unpin s f hid with
    | none =>
      rw [show applyOp s (.unpin f hid) =
        (func_cache_unpin s f hid).map (fun x => (x, [])) from rfl, hd] at h
      cases h
    | some s1 =>
      rw [show applyOp s (.unpin f hid) =
        (func_cache_unpin s f hid).map (fun x => (x, [])) from rfl, hd] at h
      injection h with h1
      rw [← h1]
      obtain ⟨e1, e2, -⟩ := func_cache_unpin_frame s f hid s1 hd
      exact storeInv_of_eq s s1 e1 e2 hw
  | subscribe sub =>
    cases hd : func_cache_subscribe_by_name s sub with
    | none =>
      rw [show applyOp s (.subscribe sub) =
        (func_cache_subscribe_by_name s sub).map (fun x => (x, [])) from rfl,
        hd] at h
      cases h
    | some s1 =>
      rw [show applyOp s (.subscribe sub) =
        (func_cache_subscribe_by_name s sub).map (fun x => (x, [])) from rfl,
        hd] at h
      injection h with h1
      rw [← h1]
      obtain ⟨e1, e2, -, -⟩ := func_cache_subscribe_frame s sub s1 hd
      exact storeInv_of_eq s s1 e1 e2 hw
  | unsubscribe sub =>
    cases hd : func_cache_unsubscribe_by_name s sub with
    | none =>
      rw [show applyOp s (.unsubscribe sub) =
        (func_cache_unsubscribe_by_name s sub).map (fun x => (x, [])) from
        rfl, hd] at h
      cases h
    | some s1 =>
      rw [show applyOp s (.unsubscribe sub) =
        (func_cache_unsubscribe_by_name s sub).map (fun x => (x, [])) from
        rfl, hd] at h
      injection h with h1
      rw [← h1]
      obtain ⟨e1, e2, -⟩ := func_cache_unsubscribe_frame s sub s1 hd
      exact storeInv_of_eq s s1 e1 e2 hw

theorem runOps_preserves_inv (ops : List Op) :
    ∀ (s : State) (r : State × List (Subscription × Func)),
      runOps s ops = some r → StoreInv s → StoreInv r.1 := by
  induction ops with
  | nil =>
    intro s r h hw
    unfold runOps at h
    injection h with h1
    rw [← h1]
    exact hw
  | cons op rest ih =>
    intro s r h hw
    unfold runOps at h
    cases ha : applyOp s op with
    | none =>
      rw [ha] at h
      cases h
    | some r1 =>
      rw [ha] at h
      dsimp only at h
      cases hr : runOps r1.1 rest with
      | none =>
        rw [hr] at h
        cases h
      | some r2 =>
        rw [hr] at h
        injection h with h1
        rw [← h1]
        exact ih r1.1 r2 hr (applyOp_preserves_inv s op r1 ha hw)

theorem storeInv_init : StoreInv func_cache_init := by
  refine ⟨List.nodup_nil, List.nodup_nil, ?_, ?_, ?_⟩
  · intro p hp
    cases hp
  · intro p hp
    cases hp
  · intro f
    constructor
    · intro h
      cases h
    · intro h
      cases h

/-- C2: after any successful sequence of registry operations starting from
the empty cache (each insert's contract enforces unique ids and names), the
two indices agree: lookup by id finds `f` iff lookup by name finds the same
`f`, both indices have unique keys, and every function present in one index
is present in the other. -/
theorem indices_agree_after_run (ops : List Op)
    (res : State × List (Subscription × Func))
    (hrun : runOps func_cache_init ops = some res) :
    (∀ f : Func, func_by_id res.1 f.fid = some f ↔
      func_by_name res.1 f.name = some f) ∧
    (res.1.funcs_by_id.map Prod.fst).Nodup ∧
    (res.1.funcs_by_name.map Prod.fst).Nodup ∧
    (∀ p ∈ res.1.funcs_by_id, (p.2.name, p.2) ∈ res.1.funcs_by_name) ∧
    (∀ q ∈ res.1.funcs_by_name, (q.2.fid, q.2) ∈ res.1.funcs_by_id) := by
  obtain ⟨w1, w2, w3, w4, w5⟩ :=
    runOps_preserves_inv ops func_cache_init res hrun storeInv_init
  refine ⟨?_, w1, w2, ?_, ?_⟩
  · intro f
    rw [show func_by_id res.1 f.fid =
        (res.1.funcs_by_id.find? (fun p => p.1 = f.fid)).map Prod.snd from
        rfl,
      show func_by_name res.1 f.name =
        (res.1.funcs_by_name.find? (fun p => p.1 = f.name)).map Prod.snd from
        rfl,
      lookup_eq_some_iff w1 f.fid f, lookup_eq_some_iff w2 f.name f]
    exact w5 f
  · intro p hp
    have hp2 : p = (p.2.fid, p.2) := by rw [← w3 p hp]
    exact (w5 p.2).1 (hp2 ▸ hp)
  · intro q hq
    have hq2 : q = (q.2.name, q.2) := by rw [← w4 q hq]
    exact (w5 q.2).2 (hq2 ▸ hq)

/-- Witness for `indices_agree_after_run`: after inserting id 1 name `f1`
into the empty cache, the two lookups agree on `⟨1, f1⟩`. -/
theorem indices_agree_after_run_witness :
    (runOps func_cache_init [Op.insert ⟨1, "f1"⟩] =
      some ((⟨[(1, ⟨1, "f1"⟩)], [("f1", ⟨1, "f1"⟩)], [], []⟩ : State), [])) ∧
    (func_by_id (⟨[(1, ⟨1, "f1"⟩)], [("f1", ⟨1, "f1"⟩)], [], []⟩ : State) 1 =
        some ⟨1, "f1"⟩ ↔
      func_by_name (⟨[(1, ⟨1, "f1"⟩)], [("f1", ⟨1, "f1"⟩)], [], []⟩ : State)
        "f1" = some ⟨1, "f1"⟩) :=
  ⟨by decide,
   (indices_agree_after_run [Op.insert ⟨1, "f1"⟩]
     ((⟨[(1, ⟨1, "f1"⟩)], [("f1", ⟨1, "f1"⟩)], [], []⟩ : State), [])
     (by decide)).1 ⟨1, "f1"⟩⟩

end FuncCache
